import Mathlib

/-!
# Verification of the linkshare section-resolution pipeline

A shallow embedding, in Lean 4, of the core logic of the `linkshare`
repository: the content scanner (`src/scanner.ts`), the authorization
evaluator and request handler (`src/index.ts`), the embed-URL transform
(`src/theme-engine.ts`), and the auth-cookie decoding (`src/auth.ts`).

Conventions of the embedding:
* TypeScript optional fields become `Option`; JavaScript truthiness of a
  string-or-undefined value (`!!x`) is `truthyOS`, which is `false` both for
  `undefined` (`none`) and for the empty string.
* Fallible code (TOML parsing, thrown exceptions) is `Except`.
* The external TOML / JSON / base64 parsers are treated as abstract pure
  functions, as the project's own design notes dictate; everything the
  repository itself computes is translated function-for-function.
* JS string helpers used by the source (`split("/")`, `.pop()`,
  `path.join`+`resolve` normalization) are modelled by executable character
  -list functions so every definition evaluates inside the kernel.
-/

namespace Linkshare

/-- JS truthiness of an optional string: `undefined` and `""` are falsy. -/
def truthyOS : Option String → Bool
  | none => false
  | some s => !(s == "")

/-- JS truthiness of an optional bool (`!!config.hidden`). -/
def truthyOB : Option Bool → Bool
  | none => false
  | some b => b

/-- Model of JS `s.split("/")` over the character list: splits at every
`'/'`, keeping empty segments, and is total and kernel-computable. -/
def splitCh : List Char → List (List Char)
  | [] => [[]]
  | c :: rest =>
    let r := splitCh rest
    if c = '/' then [] :: r
    else
      match r with
      | seg :: segs => (c :: seg) :: segs
      | [] => [[c]]

/-- JS `s.split("/")` as a list of strings. -/
def splitSlash (s : String) : List String :=
  (splitCh s.data).map (fun l => ⟨l⟩)

/-- JS `s.split("/").pop()!`: the substring after the last `'/'`
(the whole string when there is no slash). -/
def lastSegment (s : String) : String :=
  (splitSlash s).getLastD ""

/-- The dark-mode tri-state `boolean | "auto"` of the TypeScript source. -/
inductive Dark where
  | isTrue
  | isFalse
  | auto
deriving DecidableEq, Repr

/-- `CdnConfig` from `src/types.ts` (the provider unions are carried as
strings; nothing in the verified logic inspects them further). -/
structure CdnConfig where
  js : String
  fonts : String
  font_weights : List Nat
  hljs_theme : String
  hljs_theme_dark : String
deriving DecidableEq, Repr

/-- `Partial<CdnConfig>` as it appears in `SectionConfig.cdn`. -/
structure CdnPartial where
  js : Option String := none
  fonts : Option String := none
  font_weights : Option (List Nat) := none
  hljs_theme : Option String := none
  hljs_theme_dark : Option String := none
deriving DecidableEq, Repr

/-- `SectionConfig` from `src/types.ts` (the `items` sequence is omitted:
no claim under verification reads it). `title` is optional here because the
scanner itself treats a missing/empty title as absent and defaults it. -/
structure SectionConfig where
  title : Option String := none
  description : Option String := none
  password : Option String := none
  theme : Option String := none
  dark : Option Dark := none
  color : Option String := none
  background : Option String := none
  background_color : Option String := none
  logo : Option String := none
  font : Option String := none
  accent_color : Option String := none
  locale : Option String := none
  inherit : Option Bool := none
  hidden : Option Bool := none
  cdn : Option CdnPartial := none
deriving DecidableEq, Repr

/-- `ThemeDefaults` from `src/theme-engine.ts`. -/
structure ThemeDefaults where
  font : String
  color : String
  dark : Dark
  background_color : String
  background_color_dark : Option String := none
  background_color_light : Option String := none
deriving DecidableEq, Repr

/-- `ResolvedStyle` from `src/types.ts`. -/
structure ResolvedStyle where
  theme : String
  color : String
  dark : Dark
  font : String
  background : Option String := none
  background_color : String
  background_color_dark : Option String := none
  background_color_light : Option String := none
  logo : Option String := none
  accent_color : String
  locale : String
  cdn : CdnConfig
deriving DecidableEq, Repr

/-- The `COLOR_500` record of `src/theme-engine.ts`, as a lookup into the
same 22 palette names. -/
def COLOR_500 : String → Option String
  | "slate" => some "#64748b"
  | "gray" => some "#6b7280"
  | "zinc" => some "#71717a"
  | "neutral" => some "#737373"
  | "stone" => some "#78716c"
  | "red" => some "#ef4444"
  | "orange" => some "#f97316"
  | "amber" => some "#f59e0b"
  | "yellow" => some "#eab308"
  | "lime" => some "#84cc16"
  | "green" => some "#22c55e"
  | "emerald" => some "#10b981"
  | "teal" => some "#14b8a6"
  | "cyan" => some "#06b6d4"
  | "sky" => some "#0ea5e9"
  | "blue" => some "#3b82f6"
  | "indigo" => some "#6366f1"
  | "violet" => some "#8b5cf6"
  | "purple" => some "#a855f7"
  | "fuchsia" => some "#d946ef"
  | "pink" => some "#ec4899"
  | "rose" => some "#f43f5e"
  | _ => none

/-- `CDN_DEFAULTS` from `src/scanner.ts`. -/
def CDN_DEFAULTS : CdnConfig :=
  { js := "cdnjs"
    fonts := "google"
    font_weights := [300, 400, 500, 600, 700]
    hljs_theme := "github"
    hljs_theme_dark := "github-dark" }

/-- `resolveStyle` from `src/scanner.ts` (lines 118–171).  The TS function
receives `parent : Section | null` but reads only `parent.style`, so the
embedding takes the parent's resolved style directly.  `getDefaults` is the
theme-defaults lookup threaded through the scan. -/
def resolveStyle (config : SectionConfig) (parentStyle : Option ResolvedStyle)
    (getDefaults : String → ThemeDefaults) : ResolvedStyle :=
  let inherit : Bool := !(config.inherit == some false)
  let themeName : String :=
    config.theme.getD
      (if inherit && parentStyle.isSome then
        (parentStyle.map (·.theme)).getD "default"
      else "default")
  let themeDefaults := getDefaults themeName
  -- `themeChanged = !!config.theme && config.theme !== parent?.style.theme`:
  -- with no parent the comparison is against `undefined`, hence true.
  let themeChanged : Bool :=
    truthyOS config.theme &&
      (match parentStyle with
        | some ps => !(config.theme == some ps.theme)
        | none => true)
  let base : ResolvedStyle :=
    match parentStyle with
    | some ps =>
      if inherit && !themeChanged then ps
      else
        { theme := themeName
          color := themeDefaults.color
          dark := themeDefaults.dark
          font := themeDefaults.font
          background_color := themeDefaults.background_color
          background_color_dark := themeDefaults.background_color_dark
          background_color_light := themeDefaults.background_color_light
          accent_color := (COLOR_500 themeDefaults.color).getD "#6366f1"
          locale := "en"
          cdn := CDN_DEFAULTS }
    | none =>
      { theme := themeName
        color := themeDefaults.color
        dark := themeDefaults.dark
        font := themeDefaults.font
        background_color := themeDefaults.background_color
        background_color_dark := themeDefaults.background_color_dark
        background_color_light := themeDefaults.background_color_light
        accent_color := (COLOR_500 themeDefaults.color).getD "#6366f1"
        locale := "en"
        cdn := CDN_DEFAULTS }
  let color := config.color.getD base.color
  { theme := themeName
    color := color
    dark := config.dark.getD base.dark
    font := config.font.getD base.font
    background := config.background <|> (if inherit then base.background else none)
    background_color := config.background_color.getD base.background_color
    background_color_dark := base.background_color_dark
    background_color_light := base.background_color_light
    logo := config.logo <|> (if inherit then base.logo else none)
    accent_color := config.accent_color.getD ((COLOR_500 color).getD base.accent_color)
    locale := config.locale.getD base.locale
    cdn :=
      { js := (config.cdn.bind (·.js)).getD base.cdn.js
        fonts := (config.cdn.bind (·.fonts)).getD base.cdn.fonts
        font_weights := (config.cdn.bind (·.font_weights)).getD base.cdn.font_weights
        hljs_theme := (config.cdn.bind (·.hljs_theme)).getD base.cdn.hljs_theme
        hljs_theme_dark := (config.cdn.bind (·.hljs_theme_dark)).getD base.cdn.hljs_theme_dark } }

/-- The empty section config: what parsing an empty `config.toml` yields
(every field absent). -/
def emptyConfig : SectionConfig := {}

/-- A concrete theme-defaults lookup: every theme answers with the stock
defaults that `getThemeDefaults` falls back to in `src/theme-engine.ts`. -/
def gdStock : String → ThemeDefaults := fun _ =>
  { font := "Inter", color := "indigo", dark := .auto, background_color := "#0f172a" }

/-- A parent section's config that overrides `accent_color` explicitly. -/
def parentCfgC5 : SectionConfig := { emptyConfig with accent_color := some "#ff0000" }

/-- The resolved style of a root section carrying `accent_color = "#ff0000"`. -/
def parentStyleC5 : ResolvedStyle := resolveStyle parentCfgC5 none gdStock

/-- C5 counterexample: a parent whose resolved style has an explicit accent
override (`#ff0000`, over color `indigo`) does not reproduce itself in a
child with an empty config — the child's `accent_color` is recomputed as the
palette 500-shade of the inherited color (`#6366f1`), so field-for-field
equality fails. -/
theorem resolveStyle_empty_child_ne_parent :
    resolveStyle emptyConfig (some parentStyleC5) gdStock ≠ parentStyleC5 ∧
      parentStyleC5.accent_color = "#ff0000" ∧
      (resolveStyle emptyConfig (some parentStyleC5) gdStock).accent_color = "#6366f1" := by
  refine ⟨?_, rfl, rfl⟩
  decide

/-- C5 (amended): resolving style for a child with an empty config against a
parent's already-resolved style reproduces the parent's `ResolvedStyle`
field-for-field — theme, color, dark, font, background, background colors,
logo, locale and every CDN sub-field — except `accent_color`, which is
recomputed as the palette 500-shade of the (inherited) resolved color when
that color has a palette entry, and only falls back to the parent's
`accent_color` otherwise. -/
theorem resolveStyle_empty_child (ps : ResolvedStyle) (gd : String → ThemeDefaults) :
    resolveStyle emptyConfig (some ps) gd =
      { ps with accent_color := (COLOR_500 ps.color).getD ps.accent_color } := by
  cases ps
  rfl

/-- C6: a child config that sets only an explicit theme `t`, different from
the parent's resolved theme, resolves to that theme's own defaults: the
theme's color, dark tri-state, font and background colors, no background
image and no logo, accent = the palette 500-shade of the theme's default
color (or the `#6366f1` fallback), locale reset to `"en"`, and the CDN
defaults — nothing is inherited from the parent's style. -/
theorem resolveStyle_theme_change (ps : ResolvedStyle) (gd : String → ThemeDefaults)
    (t : String) (hne : t ≠ "") (hch : t ≠ ps.theme) :
    resolveStyle { emptyConfig with theme := some t } (some ps) gd =
      { theme := t
        color := (gd t).color
        dark := (gd t).dark
        font := (gd t).font
        background := none
        background_color := (gd t).background_color
        background_color_dark := (gd t).background_color_dark
        background_color_light := (gd t).background_color_light
        logo := none
        accent_color := (COLOR_500 (gd t).color).getD "#6366f1"
        locale := "en"
        cdn := CDN_DEFAULTS } := by
  have h1 : (t == "") = false := by simp [hne]
  have h2 : (some t == some ps.theme) = false := by simp [hch]
  simp only [resolveStyle, truthyOS, emptyConfig, h1, h2, Bool.not_false, Bool.not_true,
    Bool.true_and, Bool.and_false, Bool.and_true, Option.getD_some, Option.getD_none,
    Option.isSome_some, Option.bind_none, Option.orElse_none, Option.none_orElse]
  cases hc : COLOR_500 (gd t).color <;> simp [hc]

/-- Witness for C6 at a concrete input: parent resolved from the stock
defaults (theme `"default"`), child switching to theme `"minimal"`. -/
theorem resolveStyle_theme_change_witness :
    resolveStyle { emptyConfig with theme := some "minimal" }
        (some (resolveStyle emptyConfig none gdStock)) gdStock =
      { theme := "minimal"
        color := "indigo"
        dark := .auto
        font := "Inter"
        background := none
        background_color := "#0f172a"
        background_color_dark := none
        background_color_light := none
        logo := none
        accent_color := "#6366f1"
        locale := "en"
        cdn := CDN_DEFAULTS } :=
  resolveStyle_theme_change (resolveStyle emptyConfig none gdStock) gdStock "minimal"
    (by decide) (by decide)

/-! ## Authorization evaluator (`src/index.ts`, lines 58–84)

A `Section`, for the purposes of the ancestor-walking authorization code,
is its own data plus the parent back-pointer chain; the walk reads only
`config.password`, `path` and `parent`, so the embedding carries exactly
those.  The nullable back-pointer `parent: Section | null` is embedded by
the two constructors `root` (parent null) and `child` (parent present). -/

/-- A section as seen by the authorization walker: path, own password (an
optional string, with JS truthiness), and the parent chain. -/
inductive ASection where
  | root (path : String) (password : Option String)
  | child (path : String) (password : Option String) (parent : ASection)
deriving DecidableEq, Repr

def ASection.path : ASection → String
  | .root p _ => p
  | .child p _ _ => p

def ASection.password : ASection → Option String
  | .root _ pw => pw
  | .child _ pw _ => pw

/-- The ancestor chain of a section, self first, root last. -/
def chain : ASection → List ASection
  | .root p pw => [.root p pw]
  | .child p pw q => .child p pw q :: chain q

/-- Whether a node blocks the request: it has a (truthy) password and its
own path is not in the authorized set. -/
def lockedAt (authedPaths : List String) (s : ASection) : Bool :=
  truthyOS s.password && !(authedPaths.contains s.path)

/-- `isAuthorized` from `src/index.ts`: walk up the ancestor chain; every
section with a password must itself be in `authedPaths`. -/
def isAuthorized : ASection → List String → Bool
  | .root p pw, authedPaths =>
    if truthyOS pw && !(authedPaths.contains p) then false else true
  | .child p pw q, authedPaths =>
    if truthyOS pw && !(authedPaths.contains p) then false
    else isAuthorized q authedPaths

/-- The loop of `findLockingSection`: walk the chain keeping the last
unauthorized password-bearing node seen (`locker`). -/
def flsGo (authedPaths : List String) : ASection → ASection → ASection
  | cur@(.root _ _), locker => if lockedAt authedPaths cur then cur else locker
  | cur@(.child _ _ q), locker =>
    flsGo authedPaths q (if lockedAt authedPaths cur then cur else locker)

/-- `findLockingSection` from `src/index.ts`: the walk starts with
`locker = section` and overwrites it at every unauthorized password-bearing
node, so the node kept is the last one found — the one closest to root. -/
def findLockingSection (s : ASection) (authedPaths : List String) : ASection :=
  flsGo authedPaths s s

/-- The example tree of the claim: root `/` without password, `/a` and
`/a/b` each carrying one. -/
def exRoot : ASection := .root "/" none

def exA : ASection := .child "/a" (some "pw-a") exRoot

def exB : ASection := .child "/a/b" (some "pw-b") exA

theorem flsGo_eq (A : List String) (cur : ASection) (l : ASection) :
    flsGo A cur l = (((chain cur).filter (lockedAt A)).getLast?).getD l := by
  induction cur generalizing l with
  | root p pw =>
    simp only [flsGo, chain, List.filter]
    cases h : lockedAt A (ASection.root p pw) <;> simp [h]
  | child p pw q ih =>
    simp only [flsGo, chain, List.filter]
    cases h : lockedAt A (ASection.child p pw q) with
    | false =>
      simp [ih]
    | true =>
      rw [ih]
      cases hq : (chain q).filter (lockedAt A) with
      | nil => simp
      | cons x xs => simp [List.getLast?_cons]

/-- C2: `findLockingSection(s, A)` returns the highest (closest-to-root)
node of `s`'s ancestor chain that has a password and is not in `A` — the
chain lists self first and root last, so that node is the last element of
the chain filtered to unauthorized password-bearers — and `s` itself when
no such node exists.  In particular, on the tree root → `/a` (password) →
`/a/b` (password), calling it on `/a/b` with the empty authorized set
returns `/a`. -/
theorem findLockingSection_spec :
    (∀ (s : ASection) (A : List String),
        findLockingSection s A =
          (((chain s).filter (lockedAt A)).getLast?).getD s) ∧
      findLockingSection exB [] = exA := by
  exact ⟨fun s A => flsGo_eq A s s, by decide⟩

/-- C3: `isAuthorized(s, A)` is true exactly when every node of `s`'s
ancestor chain (self included) that has a password has its own path in `A`
— an ancestor unlock never substitutes for a descendant's own gate — and it
is therefore monotone in the authorized set. -/
theorem isAuthorized_spec :
    (∀ (s : ASection) (A : List String),
        isAuthorized s A = true ↔
          ∀ n ∈ chain s, truthyOS n.password = true → n.path ∈ A) ∧
      (∀ (s : ASection) (A A' : List String), A ⊆ A' →
        isAuthorized s A = true → isAuthorized s A' = true) := by
  have key : ∀ (s : ASection) (A : List String),
      isAuthorized s A = true ↔
        ∀ n ∈ chain s, truthyOS n.password = true → n.path ∈ A := by
    intro s A
    induction s with
    | root p pw =>
      simp only [isAuthorized, chain]
      cases h : truthyOS pw && !(A.contains p) with
      | true =>
        simp only [if_true, Bool.false_eq_true, false_iff]
        intro hall
        rw [Bool.and_eq_true, Bool.not_eq_true'] at h
        have := hall (.root p pw) (by simp) h.1
        simp only [ASection.path] at this
        have hc := List.elem_eq_true_of_mem this
        rw [show A.elem p = A.contains p from rfl, h.2] at hc
        exact Bool.false_ne_true hc
      | false =>
        simp only [Bool.false_eq_true, if_false, true_iff]
        intro n hn hpw
        simp only [List.mem_cons, List.not_mem_nil, or_false] at hn
        subst hn
        simp only [ASection.password] at hpw
        rw [hpw, Bool.true_and, Bool.not_eq_false'] at h
        simp only [ASection.path]
        exact List.mem_of_elem_eq_true h
    | child p pw q ih =>
      simp only [isAuthorized, chain]
      cases h : truthyOS pw && !(A.contains p) with
      | true =>
        simp only [if_true, Bool.false_eq_true, false_iff]
        intro hall
        rw [Bool.and_eq_true, Bool.not_eq_true'] at h
        have := hall (.child p pw q) (by simp) h.1
        simp only [ASection.path] at this
        have hc := List.elem_eq_true_of_mem this
        rw [show A.elem p = A.contains p from rfl, h.2] at hc
        exact Bool.false_ne_true hc
      | false =>
        simp only [Bool.false_eq_true, if_false]
        rw [ih]
        constructor
        · intro hall n hn hpw
          rcases List.mem_cons.mp hn with hn | hn
          · subst hn
            simp only [ASection.password] at hpw
            rw [hpw, Bool.true_and, Bool.not_eq_false'] at h
            simp only [ASection.path]
            exact List.mem_of_elem_eq_true h
          · exact hall n hn hpw
        · intro hall n hn hpw
          exact hall n (List.mem_cons_of_mem _ hn) hpw
  refine ⟨key, ?_⟩
  intro s A A' hsub hA
  rw [key] at hA ⊢
  intro n hn hpw
  exact hsub (hA n hn hpw)

/-- Witness for C3's monotonicity at a concrete input: `/a/b` is authorized
under `{/a, /a/b}`, hence under the superset `{/a, /a/b, /x}`. -/
theorem isAuthorized_spec_witness :
    isAuthorized exB ["/a", "/a/b", "/x"] = true :=
  isAuthorized_spec.2 exB ["/a", "/a/b"] ["/a", "/a/b", "/x"]
    (by
      intro a ha
      rcases List.mem_cons.mp ha with h | ha
      · subst h; decide
      · rcases List.mem_cons.mp ha with h | ha
        · subst h; decide
        · cases ha)
    (by decide)

/-! ## Embed URL transform (`src/theme-engine.ts`, lines 752–787) -/

/-- Strip a literal character prefix, returning the remainder. -/
def stripChars : List Char → List Char → Option (List Char)
  | [], l => some l
  | _ :: _, [] => none
  | p :: ps, c :: cs => if c = p then stripChars ps cs else none

/-- Model of `new URL(url)` restricted to what `transformEmbedUrl` reads
(`hostname` and `pathname`), for plain `http`/`https` URLs without
userinfo, port or percent-escapes: the hostname is the text between the
scheme and the first `/`, `?` or `#`; the pathname runs from that `/` to
the query/fragment, defaulting to `"/"`.  Anything else (including inputs
on which `new URL` throws) parses to `none`. -/
def parseHttpUrl (url : String) : Option (String × String) :=
  let cs := url.data
  match (stripChars "https://".data cs) <|> (stripChars "http://".data cs) with
  | none => none
  | some rest =>
    let host := rest.takeWhile (fun c => !(c = '/' || c = '?' || c = '#'))
    if host.isEmpty then none
    else
      let after := rest.drop host.length
      let path : List Char :=
        match after with
        | '/' :: _ => after.takeWhile (fun c => !(c = '?' || c = '#'))
        | _ => ['/']
      some (⟨host⟩, ⟨path⟩)

/-- The regex `\/(pub|preview|embed)(\/|$)` on a pathname: some
slash-delimited segment is `pub`, `preview` or `embed`. -/
def isEmbeddablePath (path : String) : Bool :=
  ((splitSlash path).drop 1).any (fun seg => seg == "pub" || seg == "preview" || seg == "embed")

/-- The regex `^\/<kind>\/d\/([^/]+)` on a pathname: the captured ID. -/
def docIdOf (kind : String) (path : String) : Option String :=
  match splitSlash path with
  | "" :: k :: "d" :: id :: _ => if k = kind && !(id = "") then some id else none
  | _ => none

/-- `transformEmbedUrl` from `src/theme-engine.ts`: rewrite recognized
Google Docs/Sheets/Slides URLs to their embeddable variant; pass everything
else through unchanged. -/
def transformEmbedUrl (url : String) : String :=
  match parseHttpUrl url with
  | none => url
  | some (host, path) =>
    if !(host = "docs.google.com") then url
    else if isEmbeddablePath path then url
    else
      match docIdOf "document" path with
      | some id => "https://docs.google.com/document/d/" ++ id ++ "/preview"
      | none =>
        match docIdOf "spreadsheets" path with
        | some id => "https://docs.google.com/spreadsheets/d/" ++ id ++ "/preview"
        | none =>
          match docIdOf "presentation" path with
          | some id =>
            "https://docs.google.com/presentation/d/" ++ id ++
              "/embed?start=false&loop=false&delayms=3000"
          | none => url

/-- C9: the embed transform rewrites a Google Docs edit URL to its preview
variant, leaves a Google Forms edit URL unchanged, leaves every URL whose
host is not `docs.google.com` unchanged (and every string `new URL` cannot
parse), and leaves URLs already in embeddable form (a `pub`, `preview` or
`embed` path segment) unchanged. -/
theorem transformEmbedUrl_spec :
    transformEmbedUrl "https://docs.google.com/document/d/XYZ/edit?usp=sharing" =
        "https://docs.google.com/document/d/XYZ/preview" ∧
      transformEmbedUrl "https://docs.google.com/forms/d/XYZ/edit" =
        "https://docs.google.com/forms/d/XYZ/edit" ∧
      (∀ url host path, parseHttpUrl url = some (host, path) →
        host ≠ "docs.google.com" → transformEmbedUrl url = url) ∧
      (∀ url, parseHttpUrl url = none → transformEmbedUrl url = url) ∧
      (∀ url path, parseHttpUrl url = some ("docs.google.com", path) →
        isEmbeddablePath path = true → transformEmbedUrl url = url) := by
  refine ⟨by decide, by decide, ?_, ?_, ?_⟩
  · intro url host path hp hne
    simp only [transformEmbedUrl, hp]
    simp [hne]
  · intro url hp
    simp only [transformEmbedUrl, hp]
  · intro url path hp hemb
    simp only [transformEmbedUrl, hp, hemb]
    simp

/-- Witness for C9's conditional parts at concrete inputs: a non-Google
URL, an unparseable string, and an already-embeddable Google URL all pass
through unchanged. -/
theorem transformEmbedUrl_spec_witness :
    transformEmbedUrl "https://example.com/document/d/XYZ/edit" =
        "https://example.com/document/d/XYZ/edit" ∧
      transformEmbedUrl "not a url" = "not a url" ∧
      transformEmbedUrl "https://docs.google.com/document/d/XYZ/preview" =
        "https://docs.google.com/document/d/XYZ/preview" :=
  ⟨transformEmbedUrl_spec.2.2.1 "https://example.com/document/d/XYZ/edit"
      "example.com" "/document/d/XYZ/edit" (by decide) (by decide),
    transformEmbedUrl_spec.2.2.2.1 "not a url" (by decide),
    transformEmbedUrl_spec.2.2.2.2 "https://docs.google.com/document/d/XYZ/preview"
      "/document/d/XYZ/preview" (by decide) (by decide)⟩

/-! ## GET handling and asset path traversal (`src/index.ts`, lines 93–133) -/

/-- Join a list of path segments with `/`. -/
def joinSegs : List String → String
  | [] => ""
  | [s] => s
  | s :: rest => s ++ "/" ++ joinSegs rest

/-- Node-style path normalization over segments: drop empty and `.`
segments, let `..` pop the previous segment (staying at root when there is
nothing to pop, as for an absolute path).  The accumulator holds the
processed segments in reverse. -/
def normSegs : List String → List String → List String
  | acc, [] => acc.reverse
  | acc, seg :: rest =>
    if seg = "" || seg = "." then normSegs acc rest
    else if seg = ".." then normSegs acc.tail rest
    else normSegs (seg :: acc) rest

/-- Model of `resolve(join(base, url))` from `src/index.ts` for an absolute
`base`: concatenate with a separator and normalize. -/
def resolveJoin (base url : String) : String :=
  let n := normSegs [] (splitSlash (base ++ "/" ++ url))
  if n.isEmpty then "/" else "/" ++ joinSegs n

/-- JS `s.startsWith(pre)`. -/
def startsWithStr (s pre : String) : Bool :=
  pre.data.isPrefixOf s.data

/-- JS `s.endsWith(".toml")`. -/
def endsWithToml (s : String) : Bool :=
  ".toml".data.isSuffixOf s.data

/-- Whether a resolved absolute path actually lies inside the content root:
it is the root itself or extends it past a path separator. -/
def insideRoot (contentDir resolved : String) : Bool :=
  resolved = contentDir || startsWithStr resolved (contentDir ++ "/")

/-- The loop of `findOwningSection` from `src/index.ts`: repeatedly pop the
last path segment and look the remaining prefix up in the section map.  The
embedding walks the reversed segment list, so the JS `parts.pop()` is the
head.  Falls back to the root section's entry. -/
def fosGo (getSection : String → Option ASection) : List String → Option ASection
  | [] => getSection "/"
  | _ :: rest =>
    let p := if rest.isEmpty then "/" else "/" ++ joinSegs rest.reverse
    match getSection p with
    | some s => some s
    | none => fosGo getSection rest

/-- `findOwningSection` from `src/index.ts`. -/
def findOwningSection (getSection : String → Option ASection) (urlPath : String) :
    Option ASection :=
  fosGo getSection (((splitSlash urlPath).filter (fun s => !(s = ""))).reverse)

/-- The outcomes `handleGet` can produce, abstracting the rendered
response bodies. -/
inductive GetOutcome where
  | loginPage (lockerPath : String)
  | page (path : String)
  | notFound
  | served (filePath : String)
  | unauthorized
deriving DecidableEq, Repr

/-- `handleGet` from `src/index.ts` (lines 93–133), over its collaborating
state: the flat section lookup, the content root, a file-existence oracle
for the filesystem, and the already-validated authorized path set. -/
def handleGet (contentDir : String) (getSection : String → Option ASection)
    (fileExists : String → Bool) (authedPaths : List String) (urlPath : String) :
    GetOutcome :=
  match getSection urlPath with
  | some s =>
    if !(isAuthorized s authedPaths) then
      .loginPage (findLockingSection s authedPaths).path
    else .page urlPath
  | none =>
    if endsWithToml urlPath then .notFound
    else
      let filePath := resolveJoin contentDir urlPath
      if !(startsWithStr filePath contentDir) then .notFound
      else if fileExists filePath then
        match findOwningSection getSection urlPath with
        | some owner =>
          if !(isAuthorized owner authedPaths) then .unauthorized
          else .served filePath
        | none => .served filePath
      else .notFound

/-- C7, the code's divergence evaluated: with content root `/app/content`,
the request path `/../content-evil/f` resolves to `/app/content-evil/f` —
a location outside the content root — yet `handleGet` serves the file
instead of returning not-found, because the guard
`resolve(filePath).startsWith(CONTENT_DIR)` accepts any sibling directory
whose name extends the root's final component. -/
theorem handleGet_traversal_bug :
    resolveJoin "/app/content" "/../content-evil/f" = "/app/content-evil/f" ∧
      insideRoot "/app/content" "/app/content-evil/f" = false ∧
      handleGet "/app/content" (fun _ => none) (fun _ => true) []
          "/../content-evil/f" = .served "/app/content-evil/f" := by
  decide

/-! ## Content scanner (`src/scanner.ts`)

The filesystem input of a scan is modelled as a tree: each directory
carries its entry name, the parse outcome of its `config.toml` when that
file exists (`none` = no file, `some (.error _)` = malformed TOML,
`some (.ok c)` = parsed), whether `readdir` succeeds on it, and its
subdirectories.  The `sort((a,b) => a.name.localeCompare(b.name))` of the
source is modelled as a stable insertion sort by byte-wise lexicographic
order on names (collation differences never matter to the claims below,
which are order-independent). -/

/-- A directory of the content tree, as the scanner observes it. -/
inductive FsDir where
  | mk (name : String) (config : Option (Except Unit SectionConfig))
      (readable : Bool) (subdirs : List FsDir)

def FsDir.name : FsDir → String
  | .mk n _ _ _ => n

def FsDir.config : FsDir → Option (Except Unit SectionConfig)
  | .mk _ c _ _ => c

def FsDir.readable : FsDir → Bool
  | .mk _ _ r _ => r

def FsDir.subdirs : FsDir → List FsDir
  | .mk _ _ _ ds => ds

/-- Errors a scan can raise: a TOML parse error, or (a modelling artifact)
recursion fuel running out — `scanContent` supplies fuel bounding the tree
depth, so the latter never occurs on an actual scan. -/
inductive ScanErr where
  | parse
  | fuelOut
deriving DecidableEq, Repr

/-- A scanned `Section` from `src/types.ts` (its non-owning `parent`
back-pointer is represented by position: the scan theorems relate each
parent/child pair through `edgesS`). -/
inductive SSection where
  | mk (slug path dirPath : String) (config : SectionConfig)
      (style : ResolvedStyle) (isProtected hidden : Bool)
      (children : List SSection)

def SSection.slug : SSection → String
  | .mk s _ _ _ _ _ _ _ => s

def SSection.path : SSection → String
  | .mk _ p _ _ _ _ _ _ => p

def SSection.dirPath : SSection → String
  | .mk _ _ d _ _ _ _ _ => d

def SSection.config : SSection → SectionConfig
  | .mk _ _ _ c _ _ _ _ => c

def SSection.style : SSection → ResolvedStyle
  | .mk _ _ _ _ st _ _ _ => st

def SSection.isProtected : SSection → Bool
  | .mk _ _ _ _ _ pr _ _ => pr

def SSection.hidden : SSection → Bool
  | .mk _ _ _ _ _ _ h _ => h

def SSection.children : SSection → List SSection
  | .mk _ _ _ _ _ _ _ cs => cs

/-- `stripNumericPrefix` from `src/scanner.ts`: remove a leading
`digits-dash` ordering marker (the regex `^\d+-`). -/
def stripNumericPrefix (name : String) : String :=
  let ds := name.data.takeWhile (·.isDigit)
  match name.data.dropWhile (·.isDigit) with
  | '-' :: tail => if ds.isEmpty then name else ⟨tail⟩
  | _ => name

/-- JS `name.startsWith(".")`. -/
def isDotName (n : String) : Bool :=
  match n.data with
  | '.' :: _ => true
  | _ => false

/-- Byte-wise lexicographic comparison of names (kernel-computable model of
the `localeCompare` sort order). -/
def lexLe : List Char → List Char → Bool
  | [], _ => true
  | _ :: _, [] => false
  | a :: as, b :: bs => if a = b then lexLe as bs else decide (a < b)

/-- Stable insertion of `x` into a sorted list. -/
def orderedInsertB (le : α → α → Bool) (x : α) : List α → List α
  | [] => [x]
  | y :: ys => if le x y then x :: y :: ys else y :: orderedInsertB le x ys

/-- Stable insertion sort by a boolean comparison. -/
def insertionSortB (le : α → α → Bool) : List α → List α
  | [] => []
  | x :: xs => orderedInsertB le x (insertionSortB le xs)

/-- The entry list the scanner's loop walks: directories only (already so
in the model), dot-names dropped, sorted by name. -/
def sortEntries (subs : List FsDir) : List FsDir :=
  insertionSortB (fun a b => lexLe a.name.data b.name.data)
    (subs.filter (fun e => !isDotName e.name))

/-- Reading `config.toml`: absent means the `{title: "Untitled"}` default;
malformed TOML is the thrown parse error. -/
def readConfig : Option (Except Unit SectionConfig) → Except ScanErr SectionConfig
  | none => .ok { title := some "Untitled" }
  | some (.ok c) => .ok c
  | some (.error _) => .error .parse

/-- The scanner's title defaulting: a missing (or empty, JS-falsy) title
becomes the path's last segment, or `"Home"` for the root. -/
def defaultTitle (urlPath : String) (c : SectionConfig) : SectionConfig :=
  if truthyOS c.title then c
  else { c with title := some (if urlPath = "/" then "Home" else lastSegment urlPath) }

/-- The body of the scanner's `for (const entry of sorted)` loop, taking
the recursive scan (at the enclosing fuel) as an argument.  A child is
recursed into only if it has a `config.toml`; a child scan that throws is
swallowed by the enclosing `try`/`catch`, aborting the loop (the children
collected so far are kept). -/
def scanChildrenGo
    (scanRec : FsDir → String → String → Option ResolvedStyle → Bool → Except ScanErr SSection) :
    List FsDir → String → String → ResolvedStyle → Bool → List SSection
  | [], _, _, _, _ => []
  | e :: rest, dir, urlPath, style, prot =>
    if e.config.isSome then
      let childSlug := stripNumericPrefix e.name
      let childPath := if urlPath = "/" then "/" ++ childSlug else urlPath ++ "/" ++ childSlug
      let childDir := dir ++ "/" ++ e.name
      match scanRec e childDir childPath (some style) prot with
      | .error _ => []
      | .ok c => c :: scanChildrenGo scanRec rest dir urlPath style prot
    else scanChildrenGo scanRec rest dir urlPath style prot

/-- `scanDirectory` from `src/scanner.ts` (lines 33–108).  The recursion is
driven by a fuel counter so that the definition stays kernel-computable;
`scanContent` supplies fuel that provably suffices.  The flat `sections`
map of the source is write-only during the scan (no scan step reads it) and
the objects it holds are mutated in place as children are appended, so its
final contents are recovered below (`sectionsMap`) from the returned tree:
one `set` per scanned section, parents before children, in loop order. -/
def scanDirectory (gd : String → ThemeDefaults) :
    Nat → FsDir → String → String → Option ResolvedStyle → Bool → Except ScanErr SSection
  | 0, _, _, _, _, _ => .error .fuelOut
  | fuel + 1, d, dir, urlPath, parentStyle, parentProt =>
    match readConfig d.config with
    | .error e => .error e
    | .ok config0 =>
      let config := defaultTitle urlPath config0
      let style := resolveStyle config parentStyle gd
      let isProt := truthyOS config.password || parentProt
      let entries := if d.readable then sortEntries d.subdirs else []
      let children := scanChildrenGo (scanDirectory gd fuel) entries dir urlPath style isProt
      .ok (.mk (if urlPath = "/" then "" else lastSegment urlPath) urlPath dir config
        style isProt (truthyOB config.hidden) children)

/-! `preorderS` is the pre-order traversal of a scanned tree: each section
before its children, children in loop order — exactly the order of
`sections.set` calls during the scan.  `edgesS` lists all parent/child
pairs of a scanned tree. -/

mutual
def preorderS : SSection → List SSection
  | .mk sl p dp c st pr h cs => .mk sl p dp c st pr h cs :: preorderL cs
def preorderL : List SSection → List SSection
  | [] => []
  | c :: cs => preorderS c ++ preorderL cs
end

mutual
def edgesS : SSection → List (SSection × SSection)
  | .mk sl p dp c st pr h cs =>
    cs.map (fun child => (.mk sl p dp c st pr h cs, child)) ++ edgesL cs
def edgesL : List SSection → List (SSection × SSection)
  | [] => []
  | c :: cs => edgesS c ++ edgesL cs
end

/-- The flat section map, as an insertion-ordered association list with
JS-`Map.set` semantics (replace in place, else append). -/
def mapSet (m : List (String × SSection)) (k : String) (v : SSection) :
    List (String × SSection) :=
  if m.any (fun kv => kv.1 == k) then
    m.map (fun kv => if kv.1 == k then (k, v) else kv)
  else m ++ [(k, v)]

def mapGet (m : List (String × SSection)) (k : String) : Option SSection :=
  (m.find? (fun kv => kv.1 == k)).map (·.2)

/-- The `sections` map after a scan: one `set` per scanned section, keyed
by its URL path, in pre-order. -/
def sectionsMap (root : SSection) : List (String × SSection) :=
  (preorderS root).foldl (fun m s => mapSet m s.path s) []

/-! `sizeD` counts the directories of a tree (computable and
kernel-reducible); used as recursion fuel, it strictly dominates the tree
depth. -/

mutual
def sizeD : FsDir → Nat
  | .mk _ _ _ subs => sizeL subs + 1
def sizeL : List FsDir → Nat
  | [] => 0
  | d :: ds => sizeD d + sizeL ds + 1
end

/-- `ScanResult` from `src/types.ts`. -/
structure ScanResult where
  root : SSection
  sections : List (String × SSection)

/-- `scanContent` from `src/scanner.ts`: scan the content root at URL path
`/` with no parent.  The fuel `sizeD fs` strictly dominates the tree
depth, so the scan never runs out (`scanContent_fuel_irrelevant` below). -/
def scanContent (gd : String → ThemeDefaults) (contentDir : String) (fs : FsDir) :
    Except ScanErr ScanResult :=
  (scanDirectory gd (sizeD fs) fs contentDir "/" none false).map
    (fun root => { root := root, sections := sectionsMap root })

/-- `!!config.password`: the section declares a (JS-truthy) password. -/
def hasPassword (c : SectionConfig) : Bool := truthyOS c.password

/-- The content tree of the C1 scenario: a valid root `config.toml`, a
subdirectory `a` whose `config.toml` is malformed TOML, and a valid sibling
`b`. -/
def fsC1 : FsDir :=
  .mk "content" (some (.ok {})) true
    [.mk "a" (some (.error ())) true [], .mk "b" (some (.ok {})) true []]

/-- A content root whose own `config.toml` is malformed. -/
def fsC1root : FsDir := .mk "content" (some (.error ())) true []

/-- C1, the code's divergence evaluated: a malformed `config.toml` in child
`a` does NOT abort the scan — the parent's `try`/`catch` around the
children loop (whose comment says it is for unreadable directories)
swallows the parse error, and the scan succeeds with a partial tree that
omits both the failing section `/a` and its later sibling `/b`.  Only a
malformed config at the root itself propagates. -/
theorem scanContent_swallows_child_parse_error :
    ((scanContent gdStock "content" fsC1).toOption.map fun r =>
        r.root.children.isEmpty &&
          ((mapGet r.sections "/a").isNone && (mapGet r.sections "/b").isNone)) =
        some true ∧
      scanContent gdStock "content" fsC1root = .error .parse :=
  ⟨rfl, rfl⟩

theorem mem_edgesL {pc : SSection × SSection} {cs : List SSection} :
    pc ∈ edgesL cs ↔ ∃ c ∈ cs, pc ∈ edgesS c := by
  induction cs with
  | nil => simp [edgesL]
  | cons c cs ih =>
    simp only [edgesL, List.mem_append, ih, List.mem_cons]
    constructor
    · rintro (h | ⟨x, hx, hpc⟩)
      · exact ⟨c, Or.inl rfl, h⟩
      · exact ⟨x, Or.inr hx, hpc⟩
    · rintro ⟨x, hx | hx, hpc⟩
      · subst hx; exact Or.inl hpc
      · exact Or.inr ⟨x, hx, hpc⟩

theorem mem_scanChildrenGo {scanRec :
      FsDir → String → String → Option ResolvedStyle → Bool → Except ScanErr SSection}
    {es : List FsDir} {dir urlPath : String} {style : ResolvedStyle} {prot : Bool}
    {c : SSection} (h : c ∈ scanChildrenGo scanRec es dir urlPath style prot) :
    ∃ e ∈ es, e.config.isSome = true ∧
      scanRec e (dir ++ "/" ++ e.name)
        (if urlPath = "/" then "/" ++ stripNumericPrefix e.name
          else urlPath ++ "/" ++ stripNumericPrefix e.name) (some style) prot = .ok c := by
  induction es with
  | nil => simp [scanChildrenGo] at h
  | cons e rest ih =>
    by_cases hc : e.config.isSome = true
    · simp only [scanChildrenGo, hc, if_true] at h
      rcases hrec : scanRec e (dir ++ "/" ++ e.name)
          (if urlPath = "/" then "/" ++ stripNumericPrefix e.name
            else urlPath ++ "/" ++ stripNumericPrefix e.name) (some style) prot with
        err | c'
      · rw [hrec] at h
        simp at h
      · rw [hrec] at h
        rcases List.mem_cons.mp h with h | h
        · subst h
          exact ⟨e, List.mem_cons_self _ _, hc, hrec⟩
        · rcases ih h with ⟨e', he', hcfg, hrec'⟩
          exact ⟨e', List.mem_cons_of_mem _ he', hcfg, hrec'⟩
    · simp only [scanChildrenGo, hc, if_false, Bool.false_eq_true] at h
      rcases ih h with ⟨e', he', hcfg, hrec'⟩
      exact ⟨e', List.mem_cons_of_mem _ he', hcfg, hrec'⟩

/-- The protection invariant the scan maintains below a parent whose
`protected` flag is `pprot`. -/
def protOK (pprot : Bool) (s : SSection) : Prop :=
  s.isProtected = (hasPassword s.config || pprot) ∧
    ∀ pc ∈ edgesS s, pc.2.isProtected = (hasPassword pc.2.config || pc.1.isProtected)

theorem scanDirectory_protOK (gd : String → ThemeDefaults) :
    ∀ (fuel : Nat) (d : FsDir) (dir urlPath : String) (ps : Option ResolvedStyle)
      (pp : Bool) (s : SSection),
      scanDirectory gd fuel d dir urlPath ps pp = .ok s → protOK pp s := by
  intro fuel
  induction fuel with
  | zero => intro d dir urlPath ps pp s h; simp [scanDirectory] at h
  | succ fuel ih =>
    intro d dir urlPath ps pp s h
    simp only [scanDirectory] at h
    rcases hr : readConfig d.config with e | config0
    · rw [hr] at h; simp at h
    · rw [hr] at h
      simp only [Except.ok.injEq] at h
      subst h
      constructor
      · rfl
      · intro pc hpc
        simp only [edgesS, List.mem_append, List.mem_map] at hpc
        rcases hpc with ⟨c, hc, rfl⟩ | hpc
        · have := (ih _ _ _ _ _ _ (mem_scanChildrenGo hc).choose_spec.2.2).1
          simpa [SSection.isProtected] using this
        · rcases mem_edgesL.mp hpc with ⟨c, hc, hpcc⟩
          exact (ih _ _ _ _ _ _ (mem_scanChildrenGo hc).choose_spec.2.2).2 pc hpcc

/-- C4: for every scan result, each section's `protected` flag equals "own
config has a (truthy) password OR parent is protected" — at the root the
parent contribution is `false` — hence `protected` is monotone down the
tree.  The equation mentions nothing but the password chain: the `inherit`
flag (which only steers style resolution) plays no part in it. -/
theorem scan_protected_spec (gd : String → ThemeDefaults) (cd : String) (fs : FsDir)
    (r : ScanResult) (h : scanContent gd cd fs = .ok r) :
    r.root.isProtected = hasPassword r.root.config ∧
      (∀ pc ∈ edgesS r.root,
        pc.2.isProtected = (hasPassword pc.2.config || pc.1.isProtected)) ∧
      (∀ pc ∈ edgesS r.root, pc.1.isProtected = true → pc.2.isProtected = true) := by
  rcases hs : scanDirectory gd (sizeD fs) fs cd "/" none false with e | root
  · rw [scanContent, hs] at h; simp [Except.map] at h
  · rw [scanContent, hs] at h
    simp only [Except.map, Except.ok.injEq] at h
    subst h
    have hp := scanDirectory_protOK gd _ _ _ _ _ _ _ hs
    refine ⟨by simpa using hp.1, hp.2, ?_⟩
    intro pc hpc h1
    rw [hp.2 pc hpc, h1, Bool.or_true]

/-- A small concrete scan: root without password, child `w` with one. -/
def fsW : FsDir :=
  .mk "content" (some (.ok {})) true
    [.mk "w" (some (.ok { password := some "x" })) true []]

/-- A throwaway section value, for total projections out of `Option`. -/
def dummySection : SSection :=
  .mk "" "" "" {} (resolveStyle {} none gdStock) false false []

/-- The result of scanning `fsW` (total by construction). -/
def rW : ScanResult :=
  (scanContent gdStock "content" fsW).toOption.getD ⟨dummySection, []⟩

/-- Witness for C4 at the concrete scan `fsW`. -/
theorem scan_protected_spec_witness :
    rW.root.isProtected = hasPassword rW.root.config :=
  (scan_protected_spec gdStock "content" fsW rW rfl).1

/-! ## Path and slug lemmas for the scan invariants (C8) -/

/-- The child-path construction of the scanner's loop:
`urlPath === "/" ? "/" + slug : urlPath + "/" + slug`. -/
def joinPath (pp slug : String) : String :=
  if pp = "/" then "/" ++ slug else pp ++ "/" ++ slug

/-- A character list without path separators. -/
def noSlash (l : List Char) : Bool := l.all (fun c => !(c == '/'))

theorem splitCh_ne_nil (l : List Char) : splitCh l ≠ [] := by
  cases l with
  | nil => simp [splitCh]
  | cons c rest =>
    simp only [splitCh]
    rcases h : splitCh rest with _ | ⟨seg, segs⟩
    · by_cases hc : c = '/' <;> simp [hc]
    · by_cases hc : c = '/' <;> simp [hc]

theorem splitCh_noSlash {l : List Char} (h : noSlash l = true) : splitCh l = [l] := by
  induction l with
  | nil => rfl
  | cons c rest ih =>
    simp only [noSlash, List.all_cons, Bool.and_eq_true] at h
    have hc : ¬ c = '/' := by
      intro hcc; subst hcc; simp at h
    simp only [splitCh, if_neg hc, ih (by simpa [noSlash] using h.2)]

theorem splitCh_append_slash (xs ys : List Char) (h : noSlash ys = true) :
    splitCh (xs ++ '/' :: ys) = splitCh xs ++ [ys] := by
  induction xs with
  | nil => simp [splitCh, splitCh_noSlash h]
  | cons c xs ih =>
    by_cases hc : c = '/'
    · subst hc
      simp [splitCh, ih]
    · simp only [List.cons_append, splitCh, if_neg hc, List.append_eq]
      rw [ih]
      rcases hx : splitCh xs with _ | ⟨seg, segs⟩
      · exact absurd hx (splitCh_ne_nil xs)
      · simp

theorem data_append (a b : String) : (a ++ b).data = a.data ++ b.data := rfl

theorem mk_data (s : String) : String.mk s.data = s := rfl

theorem splitSlash_append_slash (pp s' : String) (h : noSlash s'.data = true) :
    splitSlash (pp ++ "/" ++ s') = splitSlash pp ++ [s'] := by
  have hd : (pp ++ "/" ++ s').data = pp.data ++ '/' :: s'.data := by
    simp [data_append, List.append_assoc]
  simp only [splitSlash, hd, splitCh_append_slash pp.data s'.data h, List.map_append,
    List.map_cons, List.map_nil, mk_data]

theorem splitSlash_slash_cons (s' : String) (h : noSlash s'.data = true) :
    splitSlash ("/" ++ s') = ["", s'] := by
  have hd : ("/" ++ s').data = '/' :: s'.data := rfl
  simp [splitSlash, hd, splitCh, splitCh_noSlash h]

theorem getLastD_concat' (l : List String) (a d : String) :
    (l ++ [a]).getLastD d = a := by
  induction l generalizing d with
  | nil => rfl
  | cons x xs ih => rw [List.cons_append, List.getLastD_cons, ih]

theorem lastSegment_join (pp s' : String) (h : noSlash s'.data = true) :
    lastSegment (joinPath pp s') = s' := by
  by_cases hpp : pp = "/"
  · subst hpp
    rw [joinPath, if_pos rfl, lastSegment, splitSlash_slash_cons s' h]
    rfl
  · rw [joinPath, if_neg hpp, lastSegment, splitSlash_append_slash pp s' h,
      getLastD_concat']

/-- The URL path of a section, as its list of slugs (root: `[]`). -/
def segsOf (p : String) : List String :=
  if p = "/" then [] else (splitSlash p).drop 1

theorem string_append_ne_slash {pp s' : String} (hpp : ¬ pp = "/") (hs : s' ≠ "") :
    pp ++ "/" ++ s' ≠ "/" := by
  intro hcontra
  have : (pp ++ "/" ++ s').data = ['/'] := by rw [hcontra]
  rw [show (pp ++ "/" ++ s').data = pp.data ++ '/' :: s'.data by
    simp [data_append, List.append_assoc]] at this
  rcases hp : pp.data with _ | ⟨c, cs⟩
  · rw [hp, List.nil_append, List.cons.injEq] at this
    exact hs (show s' = "" from congrArg String.mk this.2)
  · rw [hp] at this
    have hlen := congrArg List.length this
    simp [List.length_append] at hlen

theorem slash_append_ne_slash {s' : String} (hs : s' ≠ "") : "/" ++ s' ≠ "/" := by
  intro hcontra
  have hlen : ('/' :: s'.data).length = (['/'] : List Char).length := by
    rw [show '/' :: s'.data = ("/" ++ s').data from rfl, hcontra]
  simp at hlen
  exact hs (show s' = "" by cases s'; simp_all [List.length_eq_zero])

theorem segsOf_join (pp s' : String) (hs : s' ≠ "") (h : noSlash s'.data = true) :
    segsOf (joinPath pp s') = segsOf pp ++ [s'] := by
  by_cases hpp : pp = "/"
  · subst hpp
    rw [joinPath, if_pos rfl, segsOf, if_neg (slash_append_ne_slash hs)]
    have hd : ("/" ++ s').data = '/' :: s'.data := rfl
    simp [splitSlash, hd, splitCh, splitCh_noSlash h, segsOf]
  · rw [joinPath, if_neg hpp, segsOf, if_neg (string_append_ne_slash hpp hs),
      splitSlash_append_slash pp s' h]
    rcases hsp : splitSlash pp with _ | ⟨x, xs⟩
    · have : splitCh pp.data ≠ [] := splitCh_ne_nil pp.data
      simp only [splitSlash] at hsp
      rw [List.map_eq_nil_iff] at hsp
      exact absurd hsp this
    · by_cases hpe : pp = "/"
      · exact absurd hpe hpp
      · simp [segsOf, if_neg hpe, hsp]

/-! ## Sorting and well-formedness of scanned trees -/

theorem orderedInsertB_perm (le : α → α → Bool) (x : α) (l : List α) :
    (orderedInsertB le x l).Perm (x :: l) := by
  induction l with
  | nil => exact List.Perm.refl _
  | cons y ys ih =>
    by_cases h : le x y = true
    · simp [orderedInsertB, h]
    · simp only [orderedInsertB, h, if_false, Bool.false_eq_true]
      exact (ih.cons y).trans (List.Perm.swap x y ys)

theorem insertionSortB_perm (le : α → α → Bool) (l : List α) :
    (insertionSortB le l).Perm l := by
  induction l with
  | nil => exact List.Perm.refl _
  | cons x xs ih =>
    exact (orderedInsertB_perm le x (insertionSortB le xs)).trans (ih.cons x)

theorem mem_sortEntries {e : FsDir} {subs : List FsDir} (h : e ∈ sortEntries subs) :
    e ∈ subs :=
  List.mem_of_mem_filter ((insertionSortB_perm _ _).mem_iff.mp h)

/-! `namesOkD`: every directory name in the tree is free of path
separators (true of any real filesystem; a modelling-side well-formedness
condition). -/

mutual
def namesOkD : FsDir → Bool
  | .mk n _ _ subs => noSlash n.data && namesOkL subs
def namesOkL : List FsDir → Bool
  | [] => true
  | d :: ds => namesOkD d && namesOkL ds
end

/-- Pairwise-distinct strings, as a boolean. -/
def distinctB : List String → Bool
  | [] => true
  | x :: xs => !(xs.contains x) && distinctB xs

/-! `slugsOkD`: in every directory of the tree, the config-bearing
subdirectories have pairwise distinct, non-empty slugs after numeric-prefix
stripping. -/

mutual
def slugsOkD : FsDir → Bool
  | .mk _ _ _ subs =>
    distinctB (((subs.filter (fun e => e.config.isSome)).map
        (fun e => stripNumericPrefix e.name))) &&
      ((subs.filter (fun e => e.config.isSome)).all
        (fun e => !(stripNumericPrefix e.name == ""))) &&
      slugsOkL subs
def slugsOkL : List FsDir → Bool
  | [] => true
  | d :: ds => slugsOkD d && slugsOkL ds
end

theorem namesOkL_mem {subs : List FsDir} {e : FsDir} (h : namesOkL subs = true)
    (he : e ∈ subs) : namesOkD e = true := by
  induction subs with
  | nil => cases he
  | cons d ds ih =>
    rw [namesOkL, Bool.and_eq_true] at h
    rcases List.mem_cons.mp he with rfl | he'
    · exact h.1
    · exact ih h.2 he'

theorem slugsOkL_mem {subs : List FsDir} {e : FsDir} (h : slugsOkL subs = true)
    (he : e ∈ subs) : slugsOkD e = true := by
  induction subs with
  | nil => cases he
  | cons d ds ih =>
    rw [slugsOkL, Bool.and_eq_true] at h
    rcases List.mem_cons.mp he with rfl | he'
    · exact h.1
    · exact ih h.2 he'

theorem namesOkD_subdirs {d : FsDir} (h : namesOkD d = true) :
    namesOkL d.subdirs = true := by
  rcases d with ⟨n, c, r, subs⟩
  rw [namesOkD, Bool.and_eq_true] at h
  exact h.2

theorem slugsOkD_subdirs {d : FsDir} (h : slugsOkD d = true) :
    slugsOkL d.subdirs = true := by
  rcases d with ⟨n, c, r, subs⟩
  rw [slugsOkD, Bool.and_eq_true, Bool.and_eq_true] at h
  exact h.2

theorem noSlash_sublist {l l' : List Char} (hs : l'.Sublist l) (h : noSlash l = true) :
    noSlash l' = true := by
  rw [noSlash, List.all_eq_true] at h ⊢
  exact fun c hc => h c (hs.subset hc)

theorem noSlash_strip {n : String} (h : noSlash n.data = true) :
    noSlash (stripNumericPrefix n).data = true := by
  have hsub : (stripNumericPrefix n).data.Sublist n.data := by
    rw [stripNumericPrefix]
    split
    next tail heq =>
      split
      · exact List.Sublist.refl _
      · show tail.Sublist n.data
        refine (List.sublist_cons_self '-' tail).trans ?_
        rw [← heq]
        exact n.data.dropWhile_sublist _
    next => exact List.Sublist.refl _
  exact noSlash_sublist hsub h

theorem distinctB_nodup {l : List String} (h : distinctB l = true) : l.Nodup := by
  induction l with
  | nil => exact List.nodup_nil
  | cons x xs ih =>
    rw [distinctB, Bool.and_eq_true] at h
    refine List.nodup_cons.mpr ⟨?_, ih h.2⟩
    intro hx
    have hc := List.elem_eq_true_of_mem hx
    rw [show xs.elem x = xs.contains x from rfl] at hc
    have h1 := h.1
    rw [hc] at h1
    simp at h1

theorem string_of_data_nil {s : String} (h : s.data = []) : s = "" := by
  cases s
  simp_all

theorem append_empty_str (s : String) : s ++ "" = s := by
  cases s
  show String.mk _ = _
  simp [data_append]

/-- The slug the scanner recomputes from a child path (`split("/").pop()`)
joins back to that same child path, for a separator-free slug. -/
theorem joinPath_slug (urlPath sl : String) (h : noSlash sl.data = true) :
    joinPath urlPath
        (if joinPath urlPath sl = "/" then "" else lastSegment (joinPath urlPath sl)) =
      joinPath urlPath sl := by
  by_cases hcp : joinPath urlPath sl = "/"
  · rw [if_pos hcp, hcp]
    by_cases hup : urlPath = "/"
    · subst hup
      rw [joinPath, if_pos rfl] at hcp ⊢
      exact append_empty_str "/"
    · rw [joinPath, if_neg hup] at hcp ⊢
      have hd := congrArg String.data hcp
      rw [show (urlPath ++ "/" ++ sl).data = urlPath.data ++ '/' :: sl.data by
        simp [data_append, List.append_assoc]] at hd
      have hlen := congrArg List.length hd
      simp [List.length_append] at hlen
      have hu : urlPath = "" := by
        apply string_of_data_nil
        apply List.length_eq_zero.mp
        have : urlPath.data.length = urlPath.length := rfl
        omega
      subst hu
      rfl
  · rw [if_neg hcp, lastSegment_join urlPath sl h]

/-- The invariant behind C8's path formula: a scan of a directory at
`urlPath` yields a section whose `path` is `urlPath`, whose `slug` is the
recomputed last segment, and in whose subtree every child's path is its
parent's path joined with the child's slug. -/
def pathOK (urlPath : String) (s : SSection) : Prop :=
  s.path = urlPath ∧
    s.slug = (if urlPath = "/" then "" else lastSegment urlPath) ∧
    ∀ pc ∈ edgesS s, pc.2.path = joinPath pc.1.path pc.2.slug

theorem scanDirectory_pathOK (gd : String → ThemeDefaults) :
    ∀ (fuel : Nat) (d : FsDir) (dir urlPath : String) (ps : Option ResolvedStyle)
      (pp : Bool) (s : SSection), namesOkD d = true →
      scanDirectory gd fuel d dir urlPath ps pp = .ok s → pathOK urlPath s := by
  intro fuel
  induction fuel with
  | zero => intro d dir urlPath ps pp s _ h; simp [scanDirectory] at h
  | succ fuel ih =>
    intro d dir urlPath ps pp s hn h
    simp only [scanDirectory] at h
    rcases hr : readConfig d.config with e | config0
    · rw [hr] at h; simp at h
    · rw [hr] at h
      simp only [Except.ok.injEq] at h
      subst h
      refine ⟨rfl, rfl, ?_⟩
      intro pc hpc
      simp only [edgesS, List.mem_append, List.mem_map] at hpc
      have hmem : ∀ {c : SSection},
          c ∈ scanChildrenGo (scanDirectory gd fuel)
            (if d.readable = true then sortEntries d.subdirs else [])
            dir urlPath
            (resolveStyle (defaultTitle urlPath config0) ps gd)
            (truthyOS (defaultTitle urlPath config0).password || pp) →
          pathOK c.path c ∧ c.path = joinPath urlPath c.slug := by
        intro c hc
        rcases mem_scanChildrenGo hc with ⟨e, he, hcfg, hrec⟩
        have hee : e ∈ d.subdirs := by
          rcases hread : d.readable with _ | _
          · rw [hread] at he; simp at he
          · rw [hread] at he; simp at he; exact mem_sortEntries he
        have hne : namesOkD e = true := namesOkL_mem (namesOkD_subdirs hn) hee
        have hslash : noSlash (stripNumericPrefix e.name).data = true := by
          rcases e with ⟨n, c', r, subs⟩
          rw [namesOkD, Bool.and_eq_true] at hne
          exact noSlash_strip hne.1
        have hcp : (if urlPath = "/" then "/" ++ stripNumericPrefix e.name
            else urlPath ++ "/" ++ stripNumericPrefix e.name) =
            joinPath urlPath (stripNumericPrefix e.name) := rfl
        rw [hcp] at hrec
        have hpok := ih e _ _ _ _ _ hne hrec
        refine ⟨hpok.1 ▸ hpok, ?_⟩
        rw [hpok.1, hpok.2.1]
        exact (joinPath_slug urlPath (stripNumericPrefix e.name) hslash).symm
      rcases hpc with ⟨c, hc, rfl⟩ | hpc
      · exact (hmem hc).2
      · rcases mem_edgesL.mp hpc with ⟨c, hc, hpcc⟩
        have := (hmem hc).1
        exact this.2.2 pc hpcc

theorem scanChildrenGo_chars
    (scanRec : FsDir → String → String → Option ResolvedStyle → Bool → Except ScanErr SSection)
    (es : List FsDir) (dir urlPath : String) (style : ResolvedStyle) (prot : Bool) :
    ∃ used : List FsDir,
      used.Sublist (es.filter (fun e => e.config.isSome)) ∧
      List.Forall₂ (fun e c => scanRec e (dir ++ "/" ++ e.name)
          (joinPath urlPath (stripNumericPrefix e.name)) (some style) prot = .ok c)
        used (scanChildrenGo scanRec es dir urlPath style prot) := by
  induction es with
  | nil => exact ⟨[], by simp, by simp [scanChildrenGo]⟩
  | cons e rest ih =>
    by_cases hc : e.config.isSome = true
    · simp only [scanChildrenGo, hc, if_true]
      rcases hrec : scanRec e (dir ++ "/" ++ e.name)
          (if urlPath = "/" then "/" ++ stripNumericPrefix e.name
            else urlPath ++ "/" ++ stripNumericPrefix e.name) (some style) prot with
        err | c'
      · exact ⟨[], by simp, List.Forall₂.nil⟩
      · rcases ih with ⟨used', hsub, hf⟩
        refine ⟨e :: used', ?_, ?_⟩
        · rw [show List.filter (fun e => e.config.isSome) (e :: rest) =
              e :: List.filter (fun e => e.config.isSome) rest by
            simp [List.filter_cons, hc]]
          exact hsub.cons₂ e
        · exact List.Forall₂.cons hrec hf
    · simp only [scanChildrenGo, hc, if_false, Bool.false_eq_true]
      rcases ih with ⟨used', hsub, hf⟩
      refine ⟨used', ?_, hf⟩
      rw [show List.filter (fun e => e.config.isSome) (e :: rest) =
          List.filter (fun e => e.config.isSome) rest by
        simp [List.filter_cons, hc]]
      exact hsub

theorem prefix_snoc_ne {l : List String} {a b : String} {t₁ t₂ : List String}
    (h₁ : (l ++ [a]) <+: t₁) (h₂ : (l ++ [b]) <+: t₂) (hab : a ≠ b) : t₁ ≠ t₂ := by
  rintro rfl
  obtain ⟨r₁, hr₁⟩ := h₁
  obtain ⟨r₂, hr₂⟩ := h₂
  rw [← hr₂] at hr₁
  rw [List.append_assoc, List.append_assoc] at hr₁
  have := List.append_cancel_left hr₁
  simp only [List.singleton_append, List.cons.injEq] at this
  exact hab this.1

theorem preorder_nodup_join
    (base : List String)
    (R : FsDir → SSection → Prop)
    (used : List FsDir) (cs : List SSection)
    (hf : List.Forall₂ R used cs)
    (hnd : (used.map (fun e => stripNumericPrefix e.name)).Nodup)
    (hprop : ∀ e c, e ∈ used → R e c →
      ((preorderS c).map (fun t => segsOf t.path)).Nodup ∧
      ∀ t ∈ preorderS c, (base ++ [stripNumericPrefix e.name]) <+: segsOf t.path) :
    ((preorderL cs).map (fun t => segsOf t.path)).Nodup ∧
      ∀ t ∈ preorderL cs, ∃ e ∈ used,
        (base ++ [stripNumericPrefix e.name]) <+: segsOf t.path := by
  induction cs generalizing used with
  | nil => simp [preorderL]
  | cons c cs' ih =>
    cases hf with
    | cons hR hf' =>
      rename_i e used'
      obtain ⟨hnd1, hnd2⟩ := List.nodup_cons.mp hnd
      obtain ⟨hcnd, hcpre⟩ :=
        hprop e c (List.mem_cons_self _ _) hR
      obtain ⟨ihnd, ihpre⟩ := ih used' hf' hnd2
        (fun e' c' he' h => hprop e' c' (List.mem_cons_of_mem _ he') h)
      constructor
      · rw [preorderL, List.map_append]
        refine List.Nodup.append hcnd ihnd ?_
        intro x hx hx'
        rcases List.mem_map.mp hx with ⟨t₁, ht₁, rfl⟩
        rcases List.mem_map.mp hx' with ⟨t₂, ht₂, hEq⟩
        rcases ihpre t₂ ht₂ with ⟨e', he', hpre₂⟩
        have hne : stripNumericPrefix e.name ≠ stripNumericPrefix e'.name := by
          intro hcontra
          refine hnd1 (List.mem_map.mpr ⟨e', he', ?_⟩)
          exact hcontra.symm
        exact prefix_snoc_ne (hcpre t₁ ht₁) hpre₂ hne hEq.symm
      · intro t ht
        rcases List.mem_append.mp (by simpa [preorderL] using ht) with ht | ht
        · exact ⟨e, List.mem_cons_self _ _, hcpre t ht⟩
        · rcases ihpre t ht with ⟨e', he', hp⟩
          exact ⟨e', List.mem_cons_of_mem _ he', hp⟩

theorem segOK_build
    (gd : String → ThemeDefaults) (fuel : Nat)
    (ih : ∀ (d : FsDir) (dir urlPath : String) (ps : Option ResolvedStyle) (pp : Bool)
      (s : SSection), namesOkD d = true → slugsOkD d = true →
      scanDirectory gd fuel d dir urlPath ps pp = .ok s →
      ((preorderS s).map (fun t => segsOf t.path)).Nodup ∧
        ∀ t ∈ preorderS s, segsOf urlPath <+: segsOf t.path)
    (subs : List FsDir) (dir urlPath : String) (style : ResolvedStyle) (prot : Bool)
    (entries : List FsDir)
    (hentries : entries = sortEntries subs ∨ entries = [])
    (hnames : namesOkL subs = true)
    (hslugs : slugsOkL subs = true)
    (hdist : ((subs.filter (fun e => e.config.isSome)).map
        (fun e => stripNumericPrefix e.name)).Nodup)
    (hnonempty : ∀ e ∈ subs.filter (fun e => e.config.isSome),
      stripNumericPrefix e.name ≠ "")
    (hnoslash : ∀ e ∈ subs, noSlash (stripNumericPrefix e.name).data = true) :
    ((preorderL (scanChildrenGo (scanDirectory gd fuel) entries dir urlPath style prot)).map
        (fun t => segsOf t.path)).Nodup ∧
      ∀ t ∈ preorderL (scanChildrenGo (scanDirectory gd fuel) entries dir urlPath style prot),
        ∃ sl', (segsOf urlPath ++ [sl']) <+: segsOf t.path := by
  rcases hentries with hentries | hentries
  case inr =>
    subst hentries
    simp [scanChildrenGo, preorderL]
  case inl =>
    subst hentries
    obtain ⟨used, husub, hfor⟩ :=
      scanChildrenGo_chars (scanDirectory gd fuel) (sortEntries subs) dir urlPath style prot
    have hmem : ∀ {e : FsDir}, e ∈ used → e ∈ subs ∧ e.config.isSome = true := by
      intro e he
      have h2 := List.mem_filter.mp (husub.subset he)
      exact ⟨mem_sortEntries h2.1, by simpa using h2.2⟩
    have hnd : (used.map (fun e => stripNumericPrefix e.name)).Nodup := by
      have hperm : (sortEntries subs).Perm
          (subs.filter (fun e => !isDotName e.name)) :=
        insertionSortB_perm _ _
      have hpf := hperm.filter (fun e => e.config.isSome)
      have hss : ((subs.filter (fun e => !isDotName e.name)).filter
            (fun e => e.config.isSome)).Sublist
          (subs.filter (fun e => e.config.isSome)) :=
        (List.filter_sublist subs).filter _
      have h1 := List.Nodup.sublist
        (hss.map (fun e => stripNumericPrefix e.name)) hdist
      have h2 := (hpf.map (fun e => stripNumericPrefix e.name)).nodup_iff.mpr h1
      exact List.Nodup.sublist
        (husub.map (fun e => stripNumericPrefix e.name)) h2
    obtain ⟨hj1, hj2⟩ := preorder_nodup_join (segsOf urlPath)
      (fun e c => scanDirectory gd fuel e (dir ++ "/" ++ e.name)
        (joinPath urlPath (stripNumericPrefix e.name)) (some style) prot = .ok c)
      used _ hfor hnd (by
        intro e c he hR
        obtain ⟨hes, hcfg⟩ := hmem he
        have hn := namesOkL_mem hnames hes
        have hs := slugsOkL_mem hslugs hes
        have hsl := hnoslash e hes
        have hne := hnonempty e (List.mem_filter.mpr ⟨hes, by simpa using hcfg⟩)
        have hseg := segsOf_join urlPath (stripNumericPrefix e.name) hne hsl
        obtain ⟨hnodup, hpre⟩ := ih e _ _ _ _ _ hn hs hR
        refine ⟨hnodup, ?_⟩
        intro t ht
        rw [← hseg]
        exact hpre t ht)
    refine ⟨hj1, ?_⟩
    intro t ht
    obtain ⟨e, _, hp⟩ := hj2 t ht
    exact ⟨stripNumericPrefix e.name, hp⟩

theorem scanDirectory_segOK (gd : String → ThemeDefaults) :
    ∀ (fuel : Nat) (d : FsDir) (dir urlPath : String) (ps : Option ResolvedStyle)
      (pp : Bool) (s : SSection), namesOkD d = true → slugsOkD d = true →
      scanDirectory gd fuel d dir urlPath ps pp = .ok s →
      ((preorderS s).map (fun t => segsOf t.path)).Nodup ∧
        ∀ t ∈ preorderS s, segsOf urlPath <+: segsOf t.path := by
  intro fuel
  induction fuel with
  | zero => intro d dir urlPath ps pp s _ _ h; simp [scanDirectory] at h
  | succ fuel ih =>
    intro d dir urlPath ps pp s hn hsl h
    simp only [scanDirectory] at h
    rcases hr : readConfig d.config with e | config0
    · rw [hr] at h; simp at h
    · rw [hr] at h
      simp only [Except.ok.injEq] at h
      subst h
      obtain ⟨dn, dc, dr, dsubs⟩ := d
      rw [namesOkD, Bool.and_eq_true] at hn
      rw [slugsOkD, Bool.and_eq_true, Bool.and_eq_true] at hsl
      have hnoslash : ∀ e ∈ dsubs, noSlash (stripNumericPrefix e.name).data = true := by
        intro e he
        have hne := namesOkL_mem hn.2 he
        rcases e with ⟨n, c', r', subs'⟩
        rw [namesOkD, Bool.and_eq_true] at hne
        exact noSlash_strip hne.1
      have hnonempty : ∀ e ∈ dsubs.filter (fun e => e.config.isSome),
          stripNumericPrefix e.name ≠ "" := by
        intro e he
        have := List.all_eq_true.mp hsl.1.2 e he
        simpa using this
      obtain ⟨bnodup, bpre⟩ := segOK_build gd fuel ih dsubs dir urlPath
        (resolveStyle (defaultTitle urlPath config0) ps gd)
        (truthyOS (defaultTitle urlPath config0).password || pp)
        (if (FsDir.mk dn dc dr dsubs).readable = true
          then sortEntries (FsDir.mk dn dc dr dsubs).subdirs else [])
        (by rcases dr with _ | _ <;> simp [FsDir.readable, FsDir.subdirs])
        hn.2 hsl.2 (distinctB_nodup hsl.1.1) hnonempty hnoslash
      constructor
      · rw [preorderS, List.map_cons]
        refine List.nodup_cons.mpr ⟨?_, bnodup⟩
        intro hmem
        rcases List.mem_map.mp hmem with ⟨t, ht, hEq⟩
        obtain ⟨sl', hp⟩ := bpre t ht
        have hlen := hp.length_le
        rw [List.length_append, List.length_singleton] at hlen
        have hEq' : segsOf t.path = segsOf urlPath := hEq
        rw [hEq'] at hlen
        omega
      · intro t ht
        rw [preorderS] at ht
        rcases List.mem_cons.mp ht with rfl | ht
        · exact List.prefix_refl _
        · obtain ⟨sl', hp⟩ := bpre t ht
          exact (List.prefix_append _ _).trans hp

theorem find?_replace (m : List (String × SSection)) (k : String) (v : SSection)
    (h : m.any (fun kv => kv.1 == k) = true) :
    (m.map (fun kv => if kv.1 == k then (k, v) else kv)).find? (fun kv => kv.1 == k) =
      some (k, v) := by
  induction m with
  | nil => simp at h
  | cons kv m' ih =>
    by_cases hk : (kv.1 == k) = true
    · rw [List.map_cons, if_pos hk]
      exact List.find?_cons_of_pos _ (by simp)
    · rw [List.map_cons, if_neg hk]
      rw [List.find?_cons_of_neg _ (by simpa using hk)]
      apply ih
      rw [List.any_cons] at h
      have hk' : (kv.1 == k) = false := by simpa using hk
      rw [hk'] at h
      simpa using h

theorem find?_replace_other (m : List (String × SSection)) (k k' : String)
    (v : SSection) (h : ¬ k' = k) :
    (m.map (fun kv => if kv.1 == k then (k, v) else kv)).find? (fun kv => kv.1 == k') =
      m.find? (fun kv => kv.1 == k') := by
  induction m with
  | nil => rfl
  | cons kv m' ih =>
    by_cases hk : (kv.1 == k) = true
    · rw [List.map_cons, if_pos hk]
      have h2 : ¬ (kv.1 == k') = true := by
        simp only [beq_iff_eq]
        intro hh
        exact h (hh ▸ (by simpa using hk))
      rw [@List.find?_cons_of_neg _ (fun kv => kv.1 == k') (k, v) _ (by
          simp only [beq_iff_eq]
          exact fun hh => h hh.symm),
        @List.find?_cons_of_neg _ (fun kv => kv.1 == k') kv m' h2]
      exact ih
    · rw [List.map_cons, if_neg hk]
      by_cases hkv : ((kv.1 == k') = true)
      · rw [@List.find?_cons_of_pos _ (fun kv => kv.1 == k') kv _ hkv,
          @List.find?_cons_of_pos _ (fun kv => kv.1 == k') kv m' hkv]
      · rw [@List.find?_cons_of_neg _ (fun kv => kv.1 == k') kv _ hkv,
          @List.find?_cons_of_neg _ (fun kv => kv.1 == k') kv m' hkv]
        exact ih

theorem find?_append_eq (m₁ m₂ : List (String × SSection))
    (p : String × SSection → Bool) :
    (m₁ ++ m₂).find? p = ((m₁.find? p).map some).getD (m₂.find? p) := by
  induction m₁ with
  | nil => simp
  | cons kv m' ih =>
    by_cases hp : p kv = true
    · rw [List.cons_append, List.find?_cons_of_pos _ hp, List.find?_cons_of_pos _ hp]
      rfl
    · rw [List.cons_append, List.find?_cons_of_neg _ hp, List.find?_cons_of_neg _ hp]
      exact ih

theorem mapGet_mapSet_self (m : List (String × SSection)) (k : String) (v : SSection) :
    mapGet (mapSet m k v) k = some v := by
  rw [mapSet]
  by_cases h : m.any (fun kv => kv.1 == k) = true
  · rw [if_pos h, mapGet, find?_replace m k v h]
    rfl
  · rw [if_neg h, mapGet, find?_append_eq]
    have hfind : m.find? (fun kv => kv.1 == k) = none := by
      rw [List.find?_eq_none]
      intro kv hkv hp
      exact h (List.any_eq_true.mpr ⟨kv, hkv, hp⟩)
    rw [hfind]
    simp [List.find?]

theorem mapGet_mapSet_other (m : List (String × SSection)) (k k' : String)
    (v : SSection) (h : k' ≠ k) :
    mapGet (mapSet m k v) k' = mapGet m k' := by
  rw [mapSet]
  by_cases hany : m.any (fun kv => kv.1 == k) = true
  · rw [if_pos hany, mapGet, mapGet, find?_replace_other m k k' v h]
  · rw [if_neg hany, mapGet, mapGet, find?_append_eq]
    rcases hf : m.find? (fun kv => kv.1 == k') with _ | kv
    · have hk : ((k, v).1 == k') = false := by
        simp only [beq_eq_false_iff_ne]
        exact fun hh => h hh.symm
      rw [hf]
      simp [List.find?, hk]
    · rw [hf]
      rfl

theorem mapGet_foldl_notmem (l : List SSection) (m : List (String × SSection))
    (k : String) (h : ∀ s ∈ l, s.path ≠ k) :
    mapGet (l.foldl (fun m s => mapSet m s.path s) m) k = mapGet m k := by
  induction l generalizing m with
  | nil => rfl
  | cons a l' ih =>
    rw [List.foldl_cons, ih _ (fun s hs => h s (List.mem_cons_of_mem _ hs))]
    exact mapGet_mapSet_other m a.path k a (Ne.symm (h a (List.mem_cons_self _ _)))

theorem mapGet_foldl_binding (l : List SSection) :
    ∀ (m : List (String × SSection)) (x : SSection), x ∈ l →
      ((l.map (fun s => s.path)).Nodup) →
      mapGet (l.foldl (fun m s => mapSet m s.path s) m) x.path = some x := by
  induction l with
  | nil => intro m x hx; cases hx
  | cons a l' ih =>
    intro m x hx hnd
    rw [List.map_cons] at hnd
    obtain ⟨hnd1, hnd2⟩ := List.nodup_cons.mp hnd
    rw [List.foldl_cons]
    rcases List.mem_cons.mp hx with rfl | hx'
    · rw [mapGet_foldl_notmem l' _ x.path ?_]
      · exact mapGet_mapSet_self m x.path x
      · intro s hs hsp
        exact hnd1 (List.mem_map.mpr ⟨s, hs, hsp⟩)
    · exact ih _ x hx' hnd2

theorem self_mem_preorderS (s : SSection) : s ∈ preorderS s := by
  cases s
  rw [preorderS]
  exact List.mem_cons_self _ _

/-- The C8 counterexample tree: the root has one subdirectory named `1-`,
whose numeric-prefix-stripped slug is empty, so the child's URL path
collides with the root's `/`. -/
def fsC8 : FsDir :=
  .mk "content" (some (.ok {})) true [.mk "1-" (some (.ok {})) true []]

/-- C8 counterexample, evaluated: scanning `fsC8` succeeds and produces two
distinct sections (the root, and its child scanned from directory `1-` —
they differ in `dirPath`) that share the path `"/"`; the flat section map
binds `"/"` to the child, which was registered last, so the scanned root is
not bound to its own path.  "Distinct sections have distinct paths, and the
map binds each scanned section's path to that section" therefore fails as
stated. -/
theorem scan_paths_counterexample :
    ((scanContent gdStock "content" fsC8).toOption.map fun r =>
        (r.root.path == "/") &&
          (match r.root.children with
            | [c] => (c.path == "/") && !(c.dirPath == r.root.dirPath) &&
                ((mapGet r.sections "/").map (fun t => t.dirPath) == some c.dirPath)
            | _ => false)) = some true := rfl

/-- C8 (amended): for every scan result the root's path is exactly `"/"`
and every non-root section's path is its parent's path joined with `/` and
its slug; and — provided every directory name strips to a slug that is
non-empty and distinct among its siblings' config-bearing directories
(`slugsOkD`; the counterexample `fsC8` violates the non-emptiness) — the
scanned sections' paths are pairwise distinct and the flat section map
binds each scanned section's path to that section.  `namesOkD` states that
directory names contain no `/`, which every real filesystem guarantees. -/
theorem scan_paths_spec (gd : String → ThemeDefaults) (cd : String) (fs : FsDir)
    (r : ScanResult) (hn : namesOkD fs = true) (hs : slugsOkD fs = true)
    (h : scanContent gd cd fs = .ok r) :
    r.root.path = "/" ∧
      (∀ pc ∈ edgesS r.root, pc.2.path = joinPath pc.1.path pc.2.slug) ∧
      ((preorderS r.root).map (fun t => t.path)).Nodup ∧
      (∀ t ∈ preorderS r.root, mapGet r.sections t.path = some t) := by
  rcases hsd : scanDirectory gd (sizeD fs) fs cd "/" none false with e | root
  · rw [scanContent, hsd] at h; simp [Except.map] at h
  · rw [scanContent, hsd] at h
    simp only [Except.map, Except.ok.injEq] at h
    subst h
    have hpok := scanDirectory_pathOK gd _ _ _ _ _ _ _ hn hsd
    have hseg := scanDirectory_segOK gd _ _ _ _ _ _ _ hn hs hsd
    have hnodup : ((preorderS root).map (fun t => t.path)).Nodup := by
      have h2 : (((preorderS root).map (fun t => t.path)).map segsOf).Nodup := by
        rw [List.map_map]
        exact hseg.1
      exact h2.of_map
    refine ⟨hpok.1, hpok.2.2, hnodup, ?_⟩
    intro t ht
    show mapGet (sectionsMap root) t.path = some t
    rw [sectionsMap]
    exact mapGet_foldl_binding (preorderS root) [] t ht hnodup

/-- Witness for C8 at the concrete scan `fsW`: the flat map binds the
root's path back to the scanned root. -/
theorem scan_paths_spec_witness :
    mapGet rW.sections rW.root.path = some rW.root :=
  (scan_paths_spec gdStock "content" fsW rW rfl rfl rfl).2.2.2 rW.root
    (self_mem_preorderS rW.root)

/-! ## Auth cookie decoding (`src/auth.ts`)

`getAuthedPaths` decodes the cookie through a fallback chain (base64 JSON,
raw JSON, URI-decoded JSON — each failing attempt caught), then keeps the
paths whose token verifies.  The external primitives are abstracted: `atob`
/ `decodeURIComponent` / `JSON.parse` are opaque functions returning `none`
where the real ones throw, and the HMAC is an opaque digest function — the
repository treats all of them as library black boxes.  JavaScript values a
parse can produce are `JVal`; `Object.entries` throws (only) on `null`. -/

/-- A parsed JSON/JavaScript value. -/
inductive JVal where
  | null
  | bool (b : Bool)
  | num (n : Int)
  | str (s : String)
  | arr (elems : List JVal)
  | obj (fields : List (String × JVal))

/-- The JavaScript primitives `decodeCookie` relies on. -/
structure JsEnv where
  atob : String → Option String
  jsonParse : String → Option JVal
  uriDecode : String → Option String

/-- `decodeCookie` from `src/auth.ts`: try base64-then-JSON, then raw JSON,
then URI-decode-then-JSON; on total failure return the empty record. -/
def decodeCookie (env : JsEnv) (v : String) : JVal :=
  match env.atob v >>= env.jsonParse with
  | some j => j
  | none =>
    match env.jsonParse v with
    | some j => j
    | none =>
      match env.uriDecode v >>= env.jsonParse with
      | some j => j
      | none => .obj []

/-- `Object.entries(data)`: fields of an object, indexed characters of a
string, indexed elements of an array, nothing for other primitives — and a
thrown `TypeError` for `null`. -/
def objEntries : JVal → Except Unit (List (String × JVal))
  | .null => .error ()
  | .obj fields => .ok fields
  | .str s => .ok (s.data.enum.map (fun ic => (Nat.repr ic.1, JVal.str ⟨[ic.2]⟩)))
  | .arr elems => .ok (elems.enum.map (fun iv => (Nat.repr iv.1, iv.2)))
  | .bool _ => .ok []
  | .num _ => .ok []

/-- `TOKEN_EXPIRY` from `src/auth.ts`: 24 hours in milliseconds. -/
def TOKEN_EXPIRY : Int := 24 * 60 * 60 * 1000

/-- The decimal-digit prefix of a character list, if non-empty. -/
def digitsVal (cs : List Char) : Option Nat :=
  let ds := cs.takeWhile (fun c => c.isDigit)
  if ds.isEmpty then none
  else some (ds.foldl (fun acc c => acc * 10 + (c.toNat - 48)) 0)

/-- JS `parseInt(s, 10)` for ordinary inputs: skip leading whitespace, an
optional sign, then the digit prefix; `none` is `NaN`. -/
def parseIntJs (s : String) : Option Int :=
  let cs := s.data.dropWhile (fun c => c = ' ' || c = '\t' || c = '\n' || c = '\r')
  match cs with
  | '-' :: rest => (digitsVal rest).map (fun n => -(n : Int))
  | '+' :: rest => (digitsVal rest).map (fun n => (n : Int))
  | _ => (digitsVal cs).map (fun n => (n : Int))

/-- Split at the first `':'` (JS `indexOf(":")` + two `substring`s). -/
def splitColonCh (acc : List Char) : List Char → Option (String × String)
  | [] => none
  | c :: rest =>
    if c = ':' then some (⟨acc.reverse⟩, ⟨rest⟩)
    else splitColonCh (c :: acc) rest

/-- `verifyAuthToken` from `src/auth.ts`, over an abstract HMAC digest
`hmacF secret message` and the current time `now`.  Its whole body is
wrapped in `try`/`catch { return false }`, so a non-string token (whose
method call would throw) is `false`; `timingSafeEqual` on the
equal-length-checked strings is string equality (when the byte lengths of
equal-`length` strings differ it throws — caught, `false` — and the strings
are then unequal anyway). -/
def verifyAuthToken (hmacF : String → String → String) (now : Int)
    (token : JVal) (path secret : String) : Bool :=
  match token with
  | .str t =>
    match splitColonCh [] t.data with
    | none => false
    | some (timestamp, hmac) =>
      match parseIntJs timestamp with
      | none => false
      | some ts =>
        if now - ts > TOKEN_EXPIRY then false
        else
          let expected := hmacF secret (path ++ ":" ++ timestamp)
          if hmac.length ≠ expected.length then false
          else hmac == expected
  | _ => false

/-- `getAuthedPaths` from `src/auth.ts`.  The returned `Set<string>` is the
list of verifying paths (in entry order); the one uncaught exception —
`Object.entries(null)` — surfaces as `.error`. -/
def getAuthedPaths (env : JsEnv) (hmacF : String → String → String) (now : Int)
    (cookieValue : Option String) (secret : String) : Except Unit (List String) :=
  match cookieValue with
  | none => .ok []
  | some v =>
    if v = "" then .ok []
    else
      match objEntries (decodeCookie env v) with
      | .error e => .error e
      | .ok entries =>
        .ok ((entries.filter
          (fun pt => verifyAuthToken hmacF now pt.2 pt.1 secret)).map (fun pt => pt.1))

/-- A concrete primitive environment agreeing with the real `atob` /
`JSON.parse` / `decodeURIComponent` on the inputs the counterexample
exercises: `atob "null"` succeeds with three non-JSON garbage bytes,
`JSON.parse "null"` yields JSON `null`, everything else fails. -/
def envNull : JsEnv :=
  { atob := fun s => if s = "null" then some "\x9e\xe9\x65" else none
    jsonParse := fun s => if s = "null" then some .null else none
    uriDecode := fun s => some s }

/-- C10 counterexample, evaluated: the cookie value `"null"` survives the
decode chain as JSON `null` (base64 decoding succeeds but yields non-JSON
bytes; the raw `JSON.parse` then returns `null`), and `Object.entries(null)`
throws a `TypeError` that `getAuthedPaths` does not catch — so
`getAuthedPaths` is not exception-free over arbitrary cookie values. -/
theorem getAuthedPaths_null_throws :
    getAuthedPaths envNull (fun _ _ => "") 0 (some "null") "secret" = .error () := rfl

/-- C10 (amended): `getAuthedPaths` never throws except when the cookie
decodes to JSON `null` (as the literal cookie value `"null"` does), in
which case `Object.entries` raises an uncaught `TypeError`.  In every other
case: a missing or empty cookie yields the empty set, a fully undecodable
cookie decodes to the empty record and yields the empty set, and otherwise
the returned set contains exactly those entry paths whose token verifies
under the given secret — well-formed `timestamp:hmac` shape, correct HMAC
over `path:timestamp`, unexpired — entries with invalid or expired tokens
being silently dropped. -/
theorem getAuthedPaths_spec (env : JsEnv) (hmacF : String → String → String)
    (now : Int) (secret : String) :
    getAuthedPaths env hmacF now none secret = .ok [] ∧
      getAuthedPaths env hmacF now (some "") secret = .ok [] ∧
      (∀ v, v ≠ "" → decodeCookie env v ≠ .null →
        ∃ entries paths, objEntries (decodeCookie env v) = .ok entries ∧
          getAuthedPaths env hmacF now (some v) secret = .ok paths ∧
          ∀ p, p ∈ paths ↔ ∃ tok, (p, tok) ∈ entries ∧
            verifyAuthToken hmacF now tok p secret = true) ∧
      (∀ v, v ≠ "" → (env.atob v >>= env.jsonParse) = none →
        env.jsonParse v = none → (env.uriDecode v >>= env.jsonParse) = none →
        getAuthedPaths env hmacF now (some v) secret = .ok []) := by
  refine ⟨rfl, rfl, ?_, ?_⟩
  · intro v hv hnull
    have hoe : ∃ entries, objEntries (decodeCookie env v) = .ok entries := by
      rcases hj : decodeCookie env v with _ | b | n | st | elems | fields
      · exact absurd hj hnull
      · exact ⟨[], rfl⟩
      · exact ⟨[], rfl⟩
      · exact ⟨_, rfl⟩
      · exact ⟨_, rfl⟩
      · exact ⟨fields, rfl⟩
    rcases hoe with ⟨entries, hoe⟩
    refine ⟨entries, (entries.filter
        (fun pt => verifyAuthToken hmacF now pt.2 pt.1 secret)).map (fun pt => pt.1),
      hoe, ?_, ?_⟩
    · rw [getAuthedPaths.eq_def]
      simp only [hv, if_false]
      rw [hoe]
    · intro p
      constructor
      · intro hp
        rcases List.mem_map.mp hp with ⟨pt, hpt, rfl⟩
        have hf := List.mem_filter.mp hpt
        exact ⟨pt.2, by simpa using hf.1, hf.2⟩
      · rintro ⟨tok, hmem, hver⟩
        exact List.mem_map.mpr ⟨(p, tok), List.mem_filter.mpr ⟨hmem, hver⟩, rfl⟩
  · intro v hv h1 h2 h3
    rw [getAuthedPaths.eq_def]
    simp only [hv, if_false]
    rw [decodeCookie, h1, h2, h3]
    rfl

/-- Witness for C10's conditional parts at a concrete input: a cookie no
decoder accepts yields the empty authorized set without throwing. -/
theorem getAuthedPaths_spec_witness :
    getAuthedPaths envNull (fun _ _ => "") 0 (some "junk") "secret" = .ok [] :=
  (getAuthedPaths_spec envNull (fun _ _ => "") 0 "secret").2.2.2 "junk"
    (by decide) rfl rfl rfl

/-! ## Fuel sufficiency: the fueled scan is fuel-independent above `sizeD` -/

theorem sizeD_pos (d : FsDir) : 1 ≤ sizeD d := by
  cases d
  rw [sizeD]
  omega

theorem sizeD_mem_le {e : FsDir} {subs : List FsDir} (h : e ∈ subs) :
    sizeD e ≤ sizeL subs := by
  induction subs with
  | nil => cases h
  | cons d ds ih =>
    rw [sizeL]
    rcases List.mem_cons.mp h with rfl | h'
    · omega
    · have := ih h'
      omega

theorem scanChildrenGo_congr
    {sr₁ sr₂ : FsDir → String → String → Option ResolvedStyle → Bool → Except ScanErr SSection}
    (es : List FsDir) (dir urlPath : String) (style : ResolvedStyle) (prot : Bool)
    (h : ∀ e ∈ es, ∀ cd cp ps pp, sr₁ e cd cp ps pp = sr₂ e cd cp ps pp) :
    scanChildrenGo sr₁ es dir urlPath style prot =
      scanChildrenGo sr₂ es dir urlPath style prot := by
  induction es with
  | nil => rfl
  | cons e rest ih =>
    by_cases hc : e.config.isSome = true
    · simp only [scanChildrenGo, hc, if_true]
      rw [h e (List.mem_cons_self _ _)]
      rcases sr₂ e (dir ++ "/" ++ e.name)
          (if urlPath = "/" then "/" ++ stripNumericPrefix e.name
            else urlPath ++ "/" ++ stripNumericPrefix e.name) (some style) prot with
        err | c
      · rfl
      · rw [ih (fun e' he' => h e' (List.mem_cons_of_mem _ he'))]
    · simp only [scanChildrenGo, hc, if_false, Bool.false_eq_true]
      exact ih (fun e' he' => h e' (List.mem_cons_of_mem _ he'))

theorem scanDirectory_fuel_stable (gd : String → ThemeDefaults) :
    ∀ (f g : Nat) (d : FsDir) (dir urlPath : String) (ps : Option ResolvedStyle)
      (pp : Bool), sizeD d ≤ f → sizeD d ≤ g →
      scanDirectory gd f d dir urlPath ps pp = scanDirectory gd g d dir urlPath ps pp := by
  intro f
  induction f with
  | zero =>
    intro g d dir urlPath ps pp hf _
    have := sizeD_pos d
    omega
  | succ f ih =>
    intro g d dir urlPath ps pp hf hg
    rcases g with _ | g
    · have := sizeD_pos d
      omega
    · simp only [scanDirectory]
      rcases hr : readConfig d.config with e | config0
      · rfl
      · obtain ⟨dn, dc, dr, dsubs⟩ := d
        rw [sizeD] at hf hg
        have hch : ∀ e ∈ (if (FsDir.mk dn dc dr dsubs).readable = true
              then sortEntries (FsDir.mk dn dc dr dsubs).subdirs else []),
            ∀ cd cp ps' pp', scanDirectory gd f e cd cp ps' pp' =
              scanDirectory gd g e cd cp ps' pp' := by
          intro e he cd cp ps' pp'
          have hes : e ∈ dsubs := by
            rcases dr with _ | _
            · simp [FsDir.readable] at he
            · simp only [FsDir.readable, if_true, FsDir.subdirs] at he
              exact mem_sortEntries he
          have := sizeD_mem_le hes
          exact ih g e cd cp ps' pp' (by omega) (by omega)
        simp only [scanChildrenGo_congr _ _ _ _ _ hch]

/-- The fuel `scanContent` supplies is irrelevant beyond the bound: any
fuel at least `sizeD fs` computes the same scan, so the fueled recursion is
a faithful rendering of the source's unbounded recursion. -/
theorem scanContent_fuel_irrelevant (gd : String → ThemeDefaults) (cd : String)
    (fs : FsDir) (f : Nat) (h : sizeD fs ≤ f) :
    scanDirectory gd f fs cd "/" none false =
      scanDirectory gd (sizeD fs) fs cd "/" none false :=
  scanDirectory_fuel_stable gd f (sizeD fs) fs cd "/" none false h le_rfl

end Linkshare
